import Mathlib

/-!
# Verification of `chunk_iter` (`src/lib.rs`)

Shallow embedding of the `chunk_iter` crate: an adapter `Chunks<T, I, N>`
that regroups an iterator's items into arrays of `N` items.

Modelling decisions:
* A Rust iterator `I` is modelled by a state type `σ` together with a step
  function `step : σ → Option T × σ` — the faithful shape of
  `fn next(&mut self) -> Option<T>`: the state is mutated even when the call
  yields `None`, which lets us model non-fused iterators.
* The staging buffer `[MaybeUninit<T>; N]` together with `needs_dropping` is
  modelled by the list of its live (initialized, not yet moved out) values:
  slots `0..needs_dropping` in order.  Slots `≥ needs_dropping` are
  uninitialized or stale and are never read by the code, so they carry no
  observable information; `needs_dropping` itself is the length of that list.
* Rust's `usize` division panics when the divisor is `0`; `checkedDiv`
  returns `none` exactly in the panic case, so `size_hint` and `len` return
  `Option` results with `none` standing for a panic.
-/

namespace ChunkIterModel

/-- Rust `usize` division `a / b`: panics (here `none`) when `b = 0`,
otherwise floor division. -/
def checkedDiv (a b : Nat) : Option Nat :=
  if b = 0 then none else some (a / b)

/-- The `Chunks<T, I, N>` struct of `src/lib.rs`.  `buffer` holds the live
prefix of the staging array (the values in slots `0..needs_dropping`, in
slot order); `iterator` is the wrapped iterator's state. -/
structure Chunks (σ T : Type) (N : Nat) where
  buffer : List T
  iterator : σ
deriving Repr, DecidableEq

/-- `needs_dropping`: number of leading initialized slots.  In the model the
buffer list holds exactly the live values, so this is its length. -/
def Chunks.needs_dropping {σ T : Type} {N : Nat} (c : Chunks σ T N) : Nat :=
  c.buffer.length

/-- `ChunkIter::chunks`: wrap an iterator; the staging buffer starts with no
initialized slot (`needs_dropping = 0`). -/
def chunks {σ T : Type} (N : Nat) (it : σ) : Chunks σ T N :=
  ⟨[], it⟩

/-- The fill loop of `Chunks::next`:
`for x in buffer[needs_dropping..] { *x = iterator.next()?; needs_dropping += 1 }`.
`k` is the number of slots still to fill.  Returns the buffer's live values,
the iterator state, and whether every remaining slot was filled. -/
def fillLoop {σ T : Type} (step : σ → Option T × σ) :
    Nat → List T → σ → List T × σ × Bool
  | 0, buf, it => (buf, it, true)
  | k + 1, buf, it =>
    match step it with
    | (none, it') => (buf, it', false)
    | (some t, it') => fillLoop step k (buf ++ [t]) it'

/-- `Chunks::next` (`impl Iterator for Chunks`): fill the empty slots from
`needs_dropping` upward; if the source runs dry return `none` keeping the
partially filled prefix; if all `N` slots are full, transmute the buffer out
as the chunk and reset `needs_dropping` to `0`. -/
def Chunks.next {σ T : Type} {N : Nat} (step : σ → Option T × σ)
    (c : Chunks σ T N) : Option (List T) × Chunks σ T N :=
  match fillLoop step (N - c.buffer.length) c.buffer c.iterator with
  | (buf, it, true) => (some buf, ⟨[], it⟩)
  | (buf, it, false) => (none, ⟨buf, it⟩)

/-- `Chunks::currently_stored`: the slice `&buffer[..needs_dropping]` viewed
as `&[T]`.  It borrows `self` immutably (pure function of the state), so it
can change neither the buffer, nor `needs_dropping`, nor the iterator. -/
def Chunks.currently_stored {σ T : Type} {N : Nat} (c : Chunks σ T N) :
    List T :=
  c.buffer.take c.needs_dropping

/-- The loop of `Chunks::into_stored`:
`for (x, item) in stored.iter_mut().enumerate().take(needs_dropping)`
`{ *item = Some(buffer[x].read()) }` — `x` is the slot index, `k` the number
of iterations left. -/
def storeLoop {T : Type} (buf : List T) :
    Nat → Nat → List (Option T) → List (Option T)
  | _, 0, stored => stored
  | x, k + 1, stored => storeLoop buf (x + 1) k (stored.set x (buf.get? x))

/-- `Chunks::into_stored`: move the `needs_dropping` live values out into a
`[Option<T>; N]` initialized to all `None`.  `self` is wrapped in
`ManuallyDrop`, so the `Drop` impl does not run on the buffer (the moved-out
values are not destroyed again); only the iterator is dropped in place. -/
def Chunks.into_stored {σ T : Type} {N : Nat} (c : Chunks σ T N) :
    List (Option T) :=
  storeLoop c.buffer 0 c.needs_dropping (List.replicate N none)

/-- `impl Drop for Chunks`: teardown reads (hence destroys) exactly the
values in slots `0..needs_dropping`, in index order.  The result is the list
of destroyed values. -/
def Chunks.dropDestroys {σ T : Type} {N : Nat} (c : Chunks σ T N) : List T :=
  (List.range c.needs_dropping).filterMap (fun x => c.buffer.get? x)

/-- `Chunks::size_hint`: `(lower / N, upper.map(|x| x / N))` over the wrapped
iterator's size hint; `none` models the division-by-zero panic. -/
def Chunks.size_hint {σ T : Type} {N : Nat}
    (sh : σ → Nat × Option Nat) (c : Chunks σ T N) :
    Option (Nat × Option Nat) :=
  match checkedDiv (sh c.iterator).1 N with
  | none => none
  | some lo =>
    match (sh c.iterator).2 with
    | none => some (lo, none)
    | some u =>
      match checkedDiv u N with
      | none => none
      | some hi => some (lo, some hi)

/-- `ExactSizeIterator::len` for `Chunks`: `iterator.len() / N`; `none`
models the division-by-zero panic. -/
def Chunks.len {σ T : Type} {N : Nat}
    (srcLen : σ → Nat) (c : Chunks σ T N) : Option Nat :=
  checkedDiv (srcLen c.iterator) N

/-- A finite source: the iterator over a Lean list, `Vec`'s `into_iter`. -/
def listStep {T : Type} : List T → Option T × List T
  | [] => (none, [])
  | a :: l => (some a, l)

/-- A source that can yield again after yielding nothing: it replays a
script of `Option` answers (a non-fused iterator). -/
def scriptStep {T : Type} : List (Option T) → Option T × List (Option T)
  | [] => (none, [])
  | o :: l => (o, l)

/-- Rust's `FusedIterator` contract for a step function: once a state yields
nothing, the successor state yields nothing as well (hence, inductively,
forever). -/
def IsFused {σ T : Type} (step : σ → Option T × σ) : Prop :=
  ∀ s, (step s).1 = none → (step (step s).2).1 = none

/-- Repeatedly call `next` until it reports end-of-production (or the fuel
runs out), collecting the chunks produced; the returned state is the one
left by the failing call. -/
def collectChunks {σ T : Type} {N : Nat} (step : σ → Option T × σ) :
    Nat → Chunks σ T N → List (List T) × Chunks σ T N
  | 0, c => ([], c)
  | k + 1, c =>
    match c.next step with
    | (some ch, c') =>
      let r := collectChunks step k c'
      (ch :: r.1, r.2)
    | (none, c') => ([], c')

/-- Call `next` exactly `k` times, collecting the chunks produced; the
caller may stop at any point and may keep calling after an end-of-production
report. -/
def iterateNext {σ T : Type} {N : Nat} (step : σ → Option T × σ) :
    Nat → Chunks σ T N → List (List T) × Chunks σ T N
  | 0, c => ([], c)
  | k + 1, c =>
    match c.next step with
    | (some ch, c') =>
      let r := iterateNext step k c'
      (ch :: r.1, r.2)
    | (none, c') =>
      let r := iterateNext step k c'
      (r.1, r.2)

/-- States of a `Chunks` value reachable by the public interface: freshly
constructed by `chunks`, or the state after a `next` call on a reachable
state (`currently_stored` and `size_hint` take `&self` and do not change the
state). -/
inductive Reachable {σ T : Type} {N : Nat} (step : σ → Option T × σ) :
    Chunks σ T N → Prop
  | init (it : σ) : Reachable step (chunks N it)
  | next (c : Chunks σ T N) : Reachable step c → Reachable step (c.next step).2

/-! ## Unfolding lemmas for the drivers -/

theorem collectChunks_succ_some {σ T : Type} {N : Nat}
    {step : σ → Option T × σ} {k : Nat} {c c' : Chunks σ T N}
    {ch : List T} (h : c.next step = (some ch, c')) :
    collectChunks step (k + 1) c =
      (ch :: (collectChunks step k c').1, (collectChunks step k c').2) := by
  rw [collectChunks, h]

theorem collectChunks_succ_none {σ T : Type} {N : Nat}
    {step : σ → Option T × σ} {k : Nat} {c c' : Chunks σ T N}
    (h : c.next step = (none, c')) :
    collectChunks step (k + 1) c = ([], c') := by
  rw [collectChunks, h]

theorem iterateNext_succ_some {σ T : Type} {N : Nat}
    {step : σ → Option T × σ} {k : Nat} {c c' : Chunks σ T N}
    {ch : List T} (h : c.next step = (some ch, c')) :
    iterateNext step (k + 1) c =
      (ch :: (iterateNext step k c').1, (iterateNext step k c').2) := by
  rw [iterateNext, h]

theorem iterateNext_succ_none {σ T : Type} {N : Nat}
    {step : σ → Option T × σ} {k : Nat} {c c' : Chunks σ T N}
    (h : c.next step = (none, c')) :
    iterateNext step (k + 1) c = (iterateNext step k c') := by
  rw [iterateNext, h]

/-! ## Fill-loop lemmas -/

theorem fillLoop_list {T : Type} :
    ∀ (k : Nat) (b l : List T),
      fillLoop listStep k b l =
        if k ≤ l.length then (b ++ l.take k, l.drop k, true)
        else (b ++ l, [], false)
  | 0, b, l => by simp [fillLoop]
  | k + 1, b, [] => by simp [fillLoop, listStep]
  | k + 1, b, a :: l => by
    rw [fillLoop, listStep]
    simp only [fillLoop_list k (b ++ [a]) l, List.length_cons,
      Nat.succ_le_succ_iff, List.take_succ_cons, List.drop_succ_cons]
    by_cases h : k ≤ l.length <;> simp [h]

theorem next_list {T : Type} {N : Nat} (b l : List T) :
    Chunks.next listStep (⟨b, l⟩ : Chunks (List T) T N) =
      if N - b.length ≤ l.length then
        (some (b ++ l.take (N - b.length)), ⟨[], l.drop (N - b.length)⟩)
      else (none, ⟨b ++ l, []⟩) := by
  rw [Chunks.next]
  simp only [fillLoop_list]
  by_cases h : N - b.length ≤ l.length <;> simp [h]

/-! ## Draining a finite list source -/

theorem collect_list {T : Type} {N : Nat} (hN : 1 ≤ N) :
    ∀ (fuel : Nat) (l : List T) (cs : List (List T))
      (c : Chunks (List T) T N),
      l.length < fuel →
      collectChunks listStep fuel ⟨[], l⟩ = (cs, c) →
      cs.flatten ++ c.buffer = l ∧ cs.length = l.length / N ∧
        c.buffer.length = l.length % N ∧ c.iterator = [] ∧
        ∀ ch ∈ cs, ch.length = N
  | 0, l, cs, c, hfuel, _ => by omega
  | fuel + 1, l, cs, c, hfuel, heq => by
    by_cases hl : N ≤ l.length
    · have hnext : Chunks.next listStep (⟨[], l⟩ : Chunks (List T) T N) =
          (some (l.take N), ⟨[], l.drop N⟩) := by
        rw [next_list]
        simp [hl]
      rw [collectChunks_succ_some hnext] at heq
      rcases hh : collectChunks listStep fuel
          (⟨[], l.drop N⟩ : Chunks (List T) T N) with ⟨cs2, c2⟩
      rw [hh] at heq
      simp only [Prod.mk.injEq] at heq
      obtain ⟨hcs, hc⟩ := heq
      have hlen : (l.drop N).length < fuel := by
        simp only [List.length_drop]; omega
      obtain ⟨h1, h2, h3, h4, h5⟩ := collect_list hN fuel (l.drop N) cs2 c2 hlen hh
      subst hcs hc
      refine ⟨?_, ?_, ?_, h4, ?_⟩
      · simp only [List.flatten_cons, List.append_assoc, h1, List.take_append_drop]
      · rw [List.length_cons, h2, List.length_drop, Nat.div_eq_sub_div hN hl]
      · rw [h3, List.length_drop, Nat.mod_eq_sub_mod hl]
      · intro ch hch
        rcases List.mem_cons.mp hch with hch | hch
        · simp [List.length_take, Nat.min_eq_left hl, hch]
        · exact h5 ch hch
    · have hnext : Chunks.next listStep (⟨[], l⟩ : Chunks (List T) T N) =
          (none, ⟨l, []⟩) := by
        rw [next_list]
        simp only [List.length_nil, Nat.sub_zero, List.nil_append]
        rw [if_neg (by omega)]
      rw [collectChunks_succ_none hnext] at heq
      simp only [Prod.mk.injEq] at heq
      obtain ⟨hcs, hc⟩ := heq
      subst hcs hc
      have hl' : l.length < N := by omega
      refine ⟨by simp, ?_, ?_, rfl, by simp⟩
      · simp [Nat.div_eq_of_lt hl']
      · simp [Nat.mod_eq_of_lt hl']

/-! ## `into_stored`, `currently_stored`, and `Drop` characterizations -/

theorem storeLoop_get? {T : Type} (b : List T) :
    ∀ (k x : Nat) (stored : List (Option T)), x + k ≤ stored.length →
      ∀ (i : Nat),
        (storeLoop b x k stored).get? i =
          if x ≤ i ∧ i < x + k then some (b.get? i) else stored.get? i
  | 0, x, stored, _, i => by
    rw [storeLoop, if_neg (by omega)]
  | k + 1, x, stored, h, i => by
    rw [storeLoop]
    have hlen : (x + 1) + k ≤ (stored.set x (b.get? x)).length := by
      rw [List.length_set]; omega
    rw [storeLoop_get? b k (x + 1) _ hlen i]
    have hx : x < stored.length := by omega
    by_cases h1 : x + 1 ≤ i ∧ i < x + 1 + k
    · rw [if_pos h1, if_pos (by omega)]
    · rw [if_neg h1, List.get?_set_of_lt' _ _ hx]
      by_cases h2 : x = i
      · rw [if_pos h2, if_pos (by omega), h2]
      · rw [if_neg h2, if_neg (by omega)]

theorem into_stored_eq {σ T : Type} {N : Nat} (c : Chunks σ T N)
    (h : c.buffer.length ≤ N) :
    c.into_stored =
      c.buffer.map some ++ List.replicate (N - c.buffer.length) none := by
  apply List.ext_get?
  intro i
  rw [Chunks.into_stored, Chunks.needs_dropping,
    storeLoop_get? _ _ _ _ (by rw [List.length_replicate]; omega) i]
  by_cases hi : i < c.buffer.length
  · rw [if_pos (by omega)]
    have hv : c.buffer.get? i = some (c.buffer.get ⟨i, hi⟩) :=
      List.get?_eq_get hi
    rw [hv, List.get?_eq_getElem?, List.getElem?_append, List.length_map,
      if_pos hi, List.getElem?_map, ← List.get?_eq_getElem?, hv]
    rfl
  · rw [if_neg (by omega), List.get?_eq_getElem?, List.get?_eq_getElem?,
      List.getElem?_replicate,
      List.getElem?_append_right (by rw [List.length_map]; omega),
      List.length_map, List.getElem?_replicate]
    by_cases hN : i < N
    · rw [if_pos hN, if_pos (by omega)]
    · rw [if_neg hN, if_neg (by omega)]

theorem currently_stored_eq {σ T : Type} {N : Nat} (c : Chunks σ T N) :
    c.currently_stored = c.buffer := by
  rw [Chunks.currently_stored, Chunks.needs_dropping, List.take_length]

theorem dropDestroys_eq {σ T : Type} {N : Nat} (c : Chunks σ T N) :
    c.dropDestroys = c.buffer := by
  rw [Chunks.dropDestroys, Chunks.needs_dropping]
  induction c.buffer with
  | nil => rfl
  | cons a b ih =>
    rw [List.length_cons, List.range_succ_eq_map, List.filterMap_cons]
    simp only [List.get?_cons_zero, List.filterMap_map, Function.comp_def,
      List.get?_cons_succ]
    rw [ih]

theorem into_stored_filterMap {σ T : Type} {N : Nat} (c : Chunks σ T N)
    (h : c.buffer.length ≤ N) :
    c.into_stored.filterMap id = c.buffer := by
  rw [into_stored_eq c h, List.filterMap_append]
  have h1 : (c.buffer.map some).filterMap id = c.buffer := by
    rw [List.filterMap_map]
    simp
  have h2 : (List.replicate (N - c.buffer.length)
      (none : Option T)).filterMap id = [] := by
    induction N - c.buffer.length with
    | zero => rfl
    | succ n ih => rw [List.replicate_succ, List.filterMap_cons]; exact ih
  rw [h1, h2, List.append_nil]

/-! ## General fill-loop lemmas -/

theorem fillLoop_prefix {σ T : Type} (step : σ → Option T × σ) :
    ∀ (k : Nat) (b : List T) (it : σ),
      ∃ new, (fillLoop step k b it).1 = b ++ new
  | 0, b, it => ⟨[], by rw [fillLoop, List.append_nil]⟩
  | k + 1, b, it => by
    rw [fillLoop]
    rcases hstep : step it with ⟨o, it2⟩
    cases o with
    | none => exact ⟨[], by rw [List.append_nil]⟩
    | some t =>
      obtain ⟨new, hnew⟩ := fillLoop_prefix step k (b ++ [t]) it2
      exact ⟨t :: new, by rw [hnew, List.append_assoc, List.singleton_append]⟩

theorem fillLoop_length_full {σ T : Type} (step : σ → Option T × σ) :
    ∀ (k : Nat) (b : List T) (it : σ) (b' : List T) (it' : σ),
      fillLoop step k b it = (b', it', true) → b'.length = b.length + k
  | 0, b, it, b', it', h => by
    rw [fillLoop] at h
    simp only [Prod.mk.injEq] at h
    obtain ⟨h1, -, -⟩ := h
    subst h1
    omega
  | k + 1, b, it, b', it', h => by
    rw [fillLoop] at h
    rcases hstep : step it with ⟨o, it2⟩
    rw [hstep] at h
    cases o with
    | none =>
      simp only [Prod.mk.injEq] at h
      exact absurd h.2.2 Bool.false_ne_true
    | some t =>
      have := fillLoop_length_full step k (b ++ [t]) it2 b' it' h
      rw [List.length_append, List.length_singleton] at this
      omega

theorem fillLoop_length_short {σ T : Type} (step : σ → Option T × σ) :
    ∀ (k : Nat) (b : List T) (it : σ) (b' : List T) (it' : σ),
      fillLoop step k b it = (b', it', false) → b'.length < b.length + k
  | 0, b, it, b', it', h => by
    rw [fillLoop] at h
    exact absurd (congrArg (fun p => p.2.2) h) (by simp)
  | k + 1, b, it, b', it', h => by
    rw [fillLoop] at h
    rcases hstep : step it with ⟨o, it2⟩
    rw [hstep] at h
    cases o with
    | none =>
      simp only [Prod.mk.injEq] at h
      obtain ⟨h1, -, -⟩ := h
      subst h1
      omega
    | some t =>
      have := fillLoop_length_short step k (b ++ [t]) it2 b' it' h
      rw [List.length_append, List.length_singleton] at this
      omega

theorem fillLoop_fused {σ T : Type} {step : σ → Option T × σ}
    (hf : IsFused step) :
    ∀ (k : Nat) (b : List T) (it : σ) (b' : List T) (it' : σ),
      fillLoop step k b it = (b', it', false) → (step it').1 = none
  | 0, b, it, b', it', h => by
    rw [fillLoop] at h
    exact absurd (congrArg (fun p => p.2.2) h) (by simp)
  | k + 1, b, it, b', it', h => by
    rw [fillLoop] at h
    rcases hstep : step it with ⟨o, it2⟩
    rw [hstep] at h
    cases o with
    | none =>
      simp only [Prod.mk.injEq] at h
      obtain ⟨-, h2, -⟩ := h
      subst h2
      have h0 : (step it).1 = none := by rw [hstep]
      have := hf it h0
      rwa [hstep] at this
    | some t => exact fillLoop_fused hf k (b ++ [t]) it2 b' it' h

/-! ## `next` lemmas -/

theorem next_none_fill {σ T : Type} {N : Nat} {step : σ → Option T × σ}
    {c c' : Chunks σ T N} (h : c.next step = (none, c')) :
    fillLoop step (N - c.buffer.length) c.buffer c.iterator =
      (c'.buffer, c'.iterator, false) := by
  rw [Chunks.next] at h
  rcases hr : fillLoop step (N - c.buffer.length) c.buffer c.iterator
    with ⟨b', it', full⟩
  rw [hr] at h
  cases full with
  | true => exact absurd (congrArg (fun p => p.1) h) (by simp)
  | false =>
    simp only [Prod.mk.injEq] at h
    rw [← h.2]

theorem next_some_fill {σ T : Type} {N : Nat} {step : σ → Option T × σ}
    {c c' : Chunks σ T N} {ch : List T} (h : c.next step = (some ch, c')) :
    fillLoop step (N - c.buffer.length) c.buffer c.iterator =
      (ch, c'.iterator, true) ∧ c'.buffer = [] := by
  rw [Chunks.next] at h
  rcases hr : fillLoop step (N - c.buffer.length) c.buffer c.iterator
    with ⟨b', it', full⟩
  rw [hr] at h
  cases full with
  | false => exact absurd (congrArg (fun p => p.1) h) (by simp)
  | true =>
    simp only [Prod.mk.injEq] at h
    obtain ⟨h1, h2⟩ := h
    rw [← h2]
    exact ⟨by rw [Option.some_inj] at h1; rw [h1], rfl⟩

theorem next_of_step_none {σ T : Type} {N : Nat} {step : σ → Option T × σ}
    (c : Chunks σ T N) (h1 : (step c.iterator).1 = none)
    (h2 : c.buffer.length < N) :
    c.next step = (none, ⟨c.buffer, (step c.iterator).2⟩) := by
  rw [Chunks.next]
  obtain ⟨m, hm⟩ : ∃ m, N - c.buffer.length = m + 1 :=
    ⟨N - c.buffer.length - 1, by omega⟩
  rw [hm, fillLoop]
  rcases hstep : step c.iterator with ⟨o, it2⟩
  rw [hstep] at h1
  cases o with
  | none => rfl
  | some t => exact absurd h1 (by simp)

/-- One failed `next` call on a fused source leaves a state on which `next`
fails again without changing the buffer. -/
theorem next_none_fused_next {σ T : Type} {N : Nat}
    {step : σ → Option T × σ} (hf : IsFused step) {c c' : Chunks σ T N}
    (hb : c.buffer.length ≤ N) (h : c.next step = (none, c')) :
    (step c'.iterator).1 = none ∧ c'.buffer.length < N := by
  have hfill := next_none_fill h
  refine ⟨fillLoop_fused hf _ _ _ _ _ hfill, ?_⟩
  have := fillLoop_length_short step _ _ _ _ _ hfill
  omega

/-! ## Reachability invariant -/

theorem reachable_live_count {σ T : Type} {N : Nat}
    {step : σ → Option T × σ} {c : Chunks σ T N}
    (h : Reachable step c) :
    c.buffer.length ≤ N ∧ (1 ≤ N → c.buffer.length < N) := by
  induction h with
  | init it => exact ⟨Nat.zero_le N, fun hN => hN⟩
  | next c hc ih =>
    rcases hr : c.next step with ⟨o, c'⟩
    cases o with
    | some ch =>
      show c'.buffer.length ≤ N ∧ (1 ≤ N → c'.buffer.length < N)
      obtain ⟨-, h2⟩ := next_some_fill hr
      rw [h2]
      exact ⟨Nat.zero_le N, fun hN => hN⟩
    | none =>
      show c'.buffer.length ≤ N ∧ (1 ≤ N → c'.buffer.length < N)
      have hfill := next_none_fill hr
      have := fillLoop_length_short step _ _ _ _ _ hfill
      exact ⟨by omega, fun _ => by omega⟩

theorem iterateNext_reachable {σ T : Type} {N : Nat}
    (step : σ → Option T × σ) :
    ∀ (k : Nat) (c : Chunks σ T N), Reachable step c →
      Reachable step (iterateNext step k c).2
  | 0, c, hc => hc
  | k + 1, c, hc => by
    rcases hr : c.next step with ⟨o, c'⟩
    have hc' : Reachable step c' := by
      have := Reachable.next c hc
      rwa [hr] at this
    cases o with
    | some ch =>
      rw [iterateNext_succ_some hr]
      exact iterateNext_reachable step k c' hc'
    | none =>
      rw [iterateNext_succ_none hr]
      exact iterateNext_reachable step k c' hc'

/-! ## Arbitrary-length runs over a list source -/

theorem iterateNext_list {T : Type} {N : Nat} :
    ∀ (k : Nat) (b l : List T),
      (iterateNext listStep k (⟨b, l⟩ : Chunks (List T) T N)).1.flatten ++
          (iterateNext listStep k (⟨b, l⟩ : Chunks (List T) T N)).2.buffer ++
          (iterateNext listStep k (⟨b, l⟩ : Chunks (List T) T N)).2.iterator =
        b ++ l
  | 0, b, l => by rw [iterateNext]; simp
  | k + 1, b, l => by
    by_cases hl : N - b.length ≤ l.length
    · have hnext : Chunks.next listStep (⟨b, l⟩ : Chunks (List T) T N) =
          (some (b ++ l.take (N - b.length)),
            ⟨[], l.drop (N - b.length)⟩) := by
        rw [next_list, if_pos hl]
      rw [iterateNext_succ_some hnext]
      have ih := iterateNext_list (N := N) k ([] : List T) (l.drop (N - b.length))
      simp only [List.flatten_cons, List.append_assoc]
      simp only [List.nil_append, List.append_assoc] at ih
      rw [ih, List.take_append_drop]
    · have hnext : Chunks.next listStep (⟨b, l⟩ : Chunks (List T) T N) =
          (none, ⟨b ++ l, []⟩) := by
        rw [next_list, if_neg hl]
      rw [iterateNext_succ_none hnext]
      have ih := iterateNext_list (N := N) k (b ++ l) ([] : List T)
      rwa [List.append_nil] at ih

/-! ## Fused sources stay exhausted -/

theorem iterateNext_fused_stuck {σ T : Type} {N : Nat}
    {step : σ → Option T × σ} (hf : IsFused step) :
    ∀ (j : Nat) (c : Chunks σ T N),
      (step c.iterator).1 = none → c.buffer.length < N →
      (step (iterateNext step j c).2.iterator).1 = none ∧
        (iterateNext step j c).2.buffer.length < N
  | 0, c, h1, h2 => ⟨h1, h2⟩
  | j + 1, c, h1, h2 => by
    have hnext := next_of_step_none c h1 h2
    rw [iterateNext_succ_none hnext]
    have h1' : (step (Chunks.mk c.buffer (step c.iterator).2 :
        Chunks σ T N).iterator).1 = none := hf c.iterator h1
    exact iterateNext_fused_stuck hf j _ h1' h2

/-- `listStep` is a fused source: the empty list yields nothing forever. -/
theorem listStep_fused {T : Type} : IsFused (listStep (T := T)) := by
  intro s h
  cases s with
  | nil => rfl
  | cons a l => exact absurd h (by simp [listStep])

/-! ## Claim theorems -/

/-- C1: draining a finite source `S` through `Chunks::next` until
end-of-production and then extracting the leftover with `into_stored` yields
exactly `|S| / N` full chunks (each of length `N`); their concatenation
followed by the present entries of the leftover, in order, is exactly `S`,
and the leftover has length `|S| % N`. -/
theorem C1_drain_partition {T : Type} (S : List T) (N : Nat) (hN : 1 ≤ N) :
    (∀ ch ∈ (collectChunks listStep (S.length + 1)
        (chunks N S : Chunks (List T) T N)).1, ch.length = N) ∧
    (collectChunks listStep (S.length + 1)
        (chunks N S : Chunks (List T) T N)).1.length = S.length / N ∧
    (collectChunks listStep (S.length + 1)
        (chunks N S : Chunks (List T) T N)).1.flatten ++
      (collectChunks listStep (S.length + 1)
        (chunks N S : Chunks (List T) T N)).2.into_stored.filterMap id = S ∧
    ((collectChunks listStep (S.length + 1)
        (chunks N S : Chunks (List T) T N)).2.into_stored.filterMap
          id).length = S.length % N := by
  rcases hr : collectChunks listStep (S.length + 1)
      (chunks N S : Chunks (List T) T N) with ⟨cs, c⟩
  obtain ⟨h1, h2, h3, -, h5⟩ :=
    collect_list hN (S.length + 1) S cs c (by omega) hr
  have hble : c.buffer.length ≤ N := by
    have := Nat.mod_lt S.length (y := N) (by omega)
    omega
  have hfm := into_stored_filterMap c hble
  refine ⟨h5, h2, ?_, ?_⟩
  · show cs.flatten ++ c.into_stored.filterMap id = S
    rw [hfm]
    exact h1
  · show (c.into_stored.filterMap id).length = S.length % N
    rw [hfm]
    exact h3

/-- C1 witness: the crate's doc example, `S = [0,1,2,3,4,5,6]`, `N = 3`. -/
theorem C1_drain_partition_witness :
    1 ≤ 3 ∧
    ((∀ ch ∈ (collectChunks listStep (([0, 1, 2, 3, 4, 5, 6] :
          List Nat).length + 1)
        (chunks 3 [0, 1, 2, 3, 4, 5, 6] : Chunks (List Nat) Nat 3)).1,
        ch.length = 3) ∧
    (collectChunks listStep (([0, 1, 2, 3, 4, 5, 6] : List Nat).length + 1)
        (chunks 3 [0, 1, 2, 3, 4, 5, 6] : Chunks (List Nat) Nat 3)).1.length =
      ([0, 1, 2, 3, 4, 5, 6] : List Nat).length / 3 ∧
    (collectChunks listStep (([0, 1, 2, 3, 4, 5, 6] : List Nat).length + 1)
        (chunks 3 [0, 1, 2, 3, 4, 5, 6] : Chunks (List Nat) Nat 3)).1.flatten
      ++ (collectChunks listStep
          (([0, 1, 2, 3, 4, 5, 6] : List Nat).length + 1)
        (chunks 3 [0, 1, 2, 3, 4, 5, 6] :
          Chunks (List Nat) Nat 3)).2.into_stored.filterMap id =
      [0, 1, 2, 3, 4, 5, 6] ∧
    ((collectChunks listStep (([0, 1, 2, 3, 4, 5, 6] : List Nat).length + 1)
        (chunks 3 [0, 1, 2, 3, 4, 5, 6] :
          Chunks (List Nat) Nat 3)).2.into_stored.filterMap id).length =
      ([0, 1, 2, 3, 4, 5, 6] : List Nat).length % 3) :=
  ⟨by omega, C1_drain_partition [0, 1, 2, 3, 4, 5, 6] 3 (by omega)⟩

/-- C2: over the whole lifetime of a `Chunks` built on a finite source `S`,
after any number `k` of `next` calls, the values handed out in full chunks,
the values still live in the buffer, and the values never pulled from the
source partition `S` exactly (each value occurs exactly once, in order);
ending the lifetime with `into_stored` hands the live values to the caller
exactly once (its `Some` entries are exactly the live buffer, and
`ManuallyDrop` keeps the `Drop` impl from re-destroying them), while ending
it by dropping destroys exactly the live buffer values once. -/
theorem C2_lifetime_accounting {T : Type} (S : List T) (N k : Nat) :
    (iterateNext listStep k (chunks N S : Chunks (List T) T N)).1.flatten ++
        (iterateNext listStep k (chunks N S : Chunks (List T) T N)).2.buffer
        ++ (iterateNext listStep k
          (chunks N S : Chunks (List T) T N)).2.iterator = S ∧
    (iterateNext listStep k
        (chunks N S : Chunks (List T) T N)).2.into_stored.filterMap id =
      (iterateNext listStep k (chunks N S : Chunks (List T) T N)).2.buffer ∧
    (iterateNext listStep k
        (chunks N S : Chunks (List T) T N)).2.dropDestroys =
      (iterateNext listStep k (chunks N S : Chunks (List T) T N)).2.buffer :=
  by
  refine ⟨?_, ?_, dropDestroys_eq _⟩
  · have := iterateNext_list (N := N) k ([] : List T) S
    simpa using this
  · apply into_stored_filterMap
    exact (reachable_live_count
      (iterateNext_reachable listStep k _ (Reachable.init S))).1

/-- C3: with a fused wrapped source, once `next` reports end-of-production,
every subsequent `next` call on the same instance (after any number `j` of
further calls) also reports end-of-production. -/
theorem C3_end_is_permanent {σ T : Type} {N : Nat}
    {step : σ → Option T × σ} {c : Chunks σ T N} (hf : IsFused step)
    (hb : c.buffer.length ≤ N) (hn : (c.next step).1 = none) :
    ∀ j : Nat, ((iterateNext step j (c.next step).2).2.next step).1 =
      none := by
  intro j
  rcases hp : c.next step with ⟨o, c'⟩
  rw [hp] at hn
  cases o with
  | some ch => exact absurd hn (by simp)
  | none =>
    obtain ⟨hs, hlen⟩ := next_none_fused_next hf hb hp
    obtain ⟨hs2, hlen2⟩ := iterateNext_fused_stuck hf j c' hs hlen
    show ((iterateNext step j c').2.next step).1 = none
    rw [next_of_step_none _ hs2 hlen2]

/-- C3 witness: `S = [0]`, `N = 2`; the first call fails, and the call after
one further call still reports end-of-production. -/
theorem C3_end_is_permanent_witness :
    IsFused (listStep (T := Nat)) ∧
    (chunks 2 [0] : Chunks (List Nat) Nat 2).buffer.length ≤ 2 ∧
    ((chunks 2 [0] : Chunks (List Nat) Nat 2).next listStep).1 = none ∧
    ((iterateNext listStep 1
        ((chunks 2 [0] : Chunks (List Nat) Nat 2).next listStep).2).2.next
          listStep).1 = none :=
  ⟨listStep_fused, by decide, by decide,
    C3_end_is_permanent listStep_fused (by decide) (by decide) 1⟩

/-- C4 counterexample: the claim says every `next` call starts its fill
attempt at slot index 0, so the live count after a failed call equals the
slots filled in that attempt alone.  On the non-fused script source
`[Some 5, None, None]` with `N = 2`: the first call fails leaving live count
1; in the second call the very first pull yields nothing, so that attempt
fills 0 slots — yet after it the live count is still 1, not 0, because the
fill loop of `src/lib.rs` starts at `needs_dropping`, not at 0. -/
theorem C4_start_at_zero_cex :
    ((chunks 2 [some 5, none, none] :
        Chunks (List (Option Nat)) Nat 2).next scriptStep).1 = none ∧
    ((chunks 2 [some 5, none, none] :
        Chunks (List (Option Nat)) Nat 2).next scriptStep).2.needs_dropping =
      1 ∧
    (scriptStep ((chunks 2 [some 5, none, none] :
        Chunks (List (Option Nat)) Nat 2).next
          scriptStep).2.iterator).1 = none ∧
    (((chunks 2 [some 5, none, none] :
        Chunks (List (Option Nat)) Nat 2).next scriptStep).2.next
          scriptStep).1 = none ∧
    (((chunks 2 [some 5, none, none] :
        Chunks (List (Option Nat)) Nat 2).next scriptStep).2.next
          scriptStep).2.needs_dropping = 1 := by
  decide

/-- C4 (amended): every `next` call starts its fill attempt at the current
live count, not at slot index 0: the values live at entry stay in place as a
prefix — of the returned chunk if the call succeeds, of the live buffer if
it reports end-of-production — so after a failed call the live count is the
entry live count plus the slots filled in that attempt. -/
theorem C4_fill_starts_at_live_count {σ T : Type} {N : Nat}
    (step : σ → Option T × σ) (c : Chunks σ T N) :
    ∃ new, (c.next step).1.getD (c.next step).2.buffer =
      c.buffer ++ new := by
  rcases hr : c.next step with ⟨o, c'⟩
  cases o with
  | some ch =>
    obtain ⟨hfill, -⟩ := next_some_fill hr
    obtain ⟨new, hnew⟩ :=
      fillLoop_prefix step (N - c.buffer.length) c.buffer c.iterator
    rw [hfill] at hnew
    exact ⟨new, hnew⟩
  | none =>
    have hfill := next_none_fill hr
    obtain ⟨new, hnew⟩ :=
      fillLoop_prefix step (N - c.buffer.length) c.buffer c.iterator
    rw [hfill] at hnew
    exact ⟨new, hnew⟩

/-- C5: for a `Chunks` with live count `k ≤ N`, `into_stored` returns a
sequence of length `N` whose first `k` entries are the `k` live values as
`Some`, in source order, and whose remaining `N - k` entries are `None`
(the moved-out values are not destroyed again: `into_stored` wraps `self` in
`ManuallyDrop`, see `C2_lifetime_accounting` for the once-only
accounting). -/
theorem C5_into_stored_spec {σ T : Type} {N : Nat} (c : Chunks σ T N)
    (h : c.needs_dropping ≤ N) :
    c.into_stored.length = N ∧
    c.into_stored.take c.needs_dropping = c.buffer.map some ∧
    c.into_stored.drop c.needs_dropping =
      List.replicate (N - c.needs_dropping) none := by
  have h' : c.buffer.length ≤ N := h
  have he := into_stored_eq c h'
  refine ⟨?_, ?_, ?_⟩
  · rw [he, List.length_append, List.length_map, List.length_replicate]
    omega
  · rw [he, Chunks.needs_dropping, ← List.length_map c.buffer some,
      List.take_left]
  · rw [he, Chunks.needs_dropping, ← List.length_map c.buffer some,
      List.drop_left, List.length_map]

/-- C5 witness: live values `[3, 4]` with `N = 3` (the crate's doc
example). -/
theorem C5_into_stored_spec_witness :
    (Chunks.mk [3, 4] ([] : List Nat) :
        Chunks (List Nat) Nat 3).needs_dropping ≤ 3 ∧
    ((Chunks.mk [3, 4] ([] : List Nat) :
        Chunks (List Nat) Nat 3).into_stored.length = 3 ∧
    (Chunks.mk [3, 4] ([] : List Nat) :
        Chunks (List Nat) Nat 3).into_stored.take
      (Chunks.mk [3, 4] ([] : List Nat) :
        Chunks (List Nat) Nat 3).needs_dropping = [3, 4].map some ∧
    (Chunks.mk [3, 4] ([] : List Nat) :
        Chunks (List Nat) Nat 3).into_stored.drop
      (Chunks.mk [3, 4] ([] : List Nat) :
        Chunks (List Nat) Nat 3).needs_dropping =
      List.replicate (3 - (Chunks.mk [3, 4] ([] : List Nat) :
        Chunks (List Nat) Nat 3).needs_dropping) none) :=
  ⟨by decide, C5_into_stored_spec (Chunks.mk [3, 4] []) (by decide)⟩

/-- C6: `currently_stored` is a read-only view of exactly the live slots in
source order — it equals the live buffer, has length `needs_dropping`, and
agrees with the present entries of `into_stored`.  It takes `&self` (in the
model, a pure function of the state), so calling it changes neither the
live count, nor the slots, nor the wrapped iterator's position. -/
theorem C6_currently_stored_view {σ T : Type} {N : Nat} (c : Chunks σ T N)
    (h : c.needs_dropping ≤ N) :
    c.currently_stored = c.buffer ∧
    c.currently_stored.length = c.needs_dropping ∧
    c.currently_stored = c.into_stored.filterMap id := by
  have h' : c.buffer.length ≤ N := h
  refine ⟨currently_stored_eq c, ?_, ?_⟩
  · rw [currently_stored_eq c, Chunks.needs_dropping]
  · rw [currently_stored_eq c, into_stored_filterMap c h']

/-- C6 witness: live value `[7]` with `N = 2`. -/
theorem C6_currently_stored_view_witness :
    (Chunks.mk [7] ([] : List Nat) :
        Chunks (List Nat) Nat 2).needs_dropping ≤ 2 ∧
    ((Chunks.mk [7] ([] : List Nat) :
        Chunks (List Nat) Nat 2).currently_stored = [7] ∧
    (Chunks.mk [7] ([] : List Nat) :
        Chunks (List Nat) Nat 2).currently_stored.length =
      (Chunks.mk [7] ([] : List Nat) :
        Chunks (List Nat) Nat 2).needs_dropping ∧
    (Chunks.mk [7] ([] : List Nat) :
        Chunks (List Nat) Nat 2).currently_stored =
      (Chunks.mk [7] ([] : List Nat) :
        Chunks (List Nat) Nat 2).into_stored.filterMap id) :=
  ⟨by decide, C6_currently_stored_view (Chunks.mk [7] []) (by decide)⟩

/-- C7: for `N ≥ 1`, if the wrapped source reports the bound
`(lower, upper)` then `size_hint` is `(lower / N, upper / N)` with floor
division (the upper bound only when the source has one), and if the source
reports an exact remaining count then `len` is that count divided by `N` —
a trailing partial group never counts as a whole chunk. -/
theorem C7_size_hint_len {σ T : Type} {N : Nat} (hN : 1 ≤ N)
    (sh : σ → Nat × Option Nat) (srcLen : σ → Nat) (c : Chunks σ T N) :
    c.size_hint sh =
      some ((sh c.iterator).1 / N,
        ((sh c.iterator).2).map (fun u => u / N)) ∧
    c.len srcLen = some (srcLen c.iterator / N) := by
  have hne : N ≠ 0 := by omega
  constructor
  · rw [Chunks.size_hint]
    rcases hsh : sh c.iterator with ⟨lo, up⟩
    cases up with
    | none => simp [checkedDiv, hne]
    | some u => simp [checkedDiv, hne]
  · rw [Chunks.len, checkedDiv, if_neg hne]

/-- C7 witness: the crate's `size_hint_test`: 8 remaining items, `N = 3`,
bound `(2, Some 2)` and exact length 2. -/
theorem C7_size_hint_len_witness :
    1 ≤ 3 ∧
    (Chunks.size_hint (fun l => (l.length, some l.length))
        (chunks 3 [0, 1, 2, 3, 4, 5, 6, 7] : Chunks (List Nat) Nat 3) =
      some (2, some 2) ∧
    Chunks.len List.length
        (chunks 3 [0, 1, 2, 3, 4, 5, 6, 7] : Chunks (List Nat) Nat 3) =
      some 2) :=
  ⟨by omega, C7_size_hint_len (by omega)
    (fun l => (l.length, some l.length)) List.length
    (chunks 3 [0, 1, 2, 3, 4, 5, 6, 7])⟩

/-- C8 counterexample: the claim asserts `live_count < N` at every
observable point with no restriction on `N`; for `N = 0` a freshly
constructed `Chunks` has `live_count = 0`, which is not `< 0`. -/
theorem C8_live_count_cex :
    ¬ ((chunks 0 ([] : List Nat) :
        Chunks (List Nat) Nat 0).needs_dropping < 0) := by
  decide

/-- C8 (amended): at every observable point — after construction and after
every `next` call (`currently_stored` and `size_hint` do not change the
state) — `0 ≤ live_count ≤ N`, and `live_count < N` whenever `N ≥ 1`; the
excess `live_count = N` inside `next` is transient and never observable. -/
theorem C8_live_count_invariant {σ T : Type} {N : Nat}
    {step : σ → Option T × σ} {c : Chunks σ T N}
    (h : Reachable step c) :
    c.needs_dropping ≤ N ∧ (1 ≤ N → c.needs_dropping < N) :=
  reachable_live_count h

/-- C8 witness: a freshly constructed instance with `N = 3`. -/
theorem C8_live_count_invariant_witness :
    Reachable listStep (chunks 3 [5, 6] : Chunks (List Nat) Nat 3) ∧
    ((chunks 3 [5, 6] : Chunks (List Nat) Nat 3).needs_dropping ≤ 3 ∧
      (1 ≤ 3 →
        (chunks 3 [5, 6] : Chunks (List Nat) Nat 3).needs_dropping < 3)) :=
  ⟨@Reachable.init (List Nat) Nat 3 listStep [5, 6],
    C8_live_count_invariant (@Reachable.init (List Nat) Nat 3 listStep
      [5, 6])⟩

/-- C9: for `N = 0` every `next` call returns an empty chunk without
touching the wrapped source: `k` calls yield `k` empty chunks and leave the
instance exactly as constructed, for every source whatsoever. -/
theorem C9_zero_chunks {σ T : Type} (step : σ → Option T × σ) (it : σ) :
    ∀ k : Nat, iterateNext step k (chunks 0 it : Chunks σ T 0) =
      (List.replicate k [], chunks 0 it) := by
  intro k
  induction k with
  | zero => rw [iterateNext]; rfl
  | succ k ih =>
    have hnext : (chunks 0 it : Chunks σ T 0).next step =
        (some [], chunks 0 it) := rfl
    rw [iterateNext_succ_some hnext, ih, List.replicate_succ]

/-- C10: for `N = 0` both bound-reporting operations divide by zero and
panic (modelled as `none`) for every wrapped source — `size_hint`
unconditionally (so in particular whenever the source reports an upper
bound), and `len` as well; neither guards `N`.  `next` itself is total for
`N = 0` (see `C9_zero_chunks`). -/
theorem C10_zero_div_panics {σ T : Type} (sh : σ → Nat × Option Nat)
    (srcLen : σ → Nat) (c : Chunks σ T 0) :
    c.size_hint sh = none ∧ c.len srcLen = none := by
  constructor
  · rw [Chunks.size_hint]
    simp [checkedDiv]
  · rw [Chunks.len]
    simp [checkedDiv]

end ChunkIterModel
